import Mathlib

/-!
Verification of the Anklang real-time audio engine core against its
natural-language specification.  The definitions below are shallow
embeddings of the C++ sources: the `FrameRingBuffer` template of the JACK
PCM driver, the scheduling / rendering / job / IPC machinery of
`AudioEngineThread` (engine.cc), the built-in `EngineMidiInput` processor
and the capture-writer management.  Machine unsigned integers are modelled
as `Nat` (the int arithmetic in the ring buffer stays non-negative under
the buffer invariant, where truncated `Nat` subtraction agrees with the
C++ `int` arithmetic); `float` sample data is modelled by an abstract
element type, since none of the verified properties depend on
floating-point arithmetic.
-/

set_option autoImplicit false

namespace Anklang

variable {α : Type} {σ : Type}

/-! ### List helpers modelling raw memory operations -/

/-- `fast_copy (d.length) (buf + pos) d`: overwrite `buf` at offset `pos`
with the data `d`, leaving everything else unchanged. -/
def writeAt (pos : Nat) (d : List α) (buf : List α) : List α :=
  buf.take pos ++ d ++ buf.drop (pos + d.length)

/-- `std::vector::resize (n)`: truncate or pad with default elements. -/
def vecResize (buf : List α) (n : Nat) (dflt : α) : List α :=
  buf.take n ++ List.replicate (n - buf.length) dflt

/-- `floatfill (buf, v, n)`: write `n` copies of `v` at the start of `buf`. -/
def floatfill (buf : List α) (v : α) (n : Nat) : List α :=
  List.replicate n v ++ buf.drop n

theorem writeAt_length {pos : Nat} {d buf : List α}
    (h : pos + d.length ≤ buf.length) :
    (writeAt pos d buf).length = buf.length := by
  simp only [writeAt, List.length_append, List.length_take, List.length_drop]
  omega

theorem vecResize_length (buf : List α) (n : Nat) (dflt : α) :
    (vecResize buf n dflt).length = n := by
  simp only [vecResize, List.length_append, List.length_take, List.length_replicate]
  omega

/-! ### FrameRingBuffer (src/unnamed/part_000, lines 94-262)

A single-producer/single-consumer ring buffer holding `n_channels_`
parallel channel lanes.  `channel_buffer_size_` is `n_frames + 1`; the
extra slot disambiguates empty from full. -/

structure FrameRingBuffer (α : Type) where
  channel_buffer_ : List (List α)
  read_frame_pos_ : Nat
  write_frame_pos_ : Nat
  channel_buffer_size_ : Nat
  n_channels_ : Nat
deriving DecidableEq

/-- `get_readable_frames`: `if (wpos < rpos) wpos += size; return wpos - rpos`. -/
def FrameRingBuffer.get_readable_frames (rb : FrameRingBuffer α) : Nat :=
  if rb.write_frame_pos_ < rb.read_frame_pos_ then
    rb.write_frame_pos_ + rb.channel_buffer_size_ - rb.read_frame_pos_
  else rb.write_frame_pos_ - rb.read_frame_pos_

/-- `get_writable_frames`: `if (rpos <= wpos) rpos += size; return rpos - wpos - 1`. -/
def FrameRingBuffer.get_writable_frames (rb : FrameRingBuffer α) : Nat :=
  if rb.read_frame_pos_ ≤ rb.write_frame_pos_ then
    rb.read_frame_pos_ + rb.channel_buffer_size_ - rb.write_frame_pos_ - 1
  else rb.read_frame_pos_ - rb.write_frame_pos_ - 1

/-- Per-channel part of `FrameRingBuffer::read`: copy `read1` frames
starting at `rpos` and the remaining `can_read - read1` frames from the
start of the channel buffer. -/
def chanRead (size rpos can_read : Nat) (buf : List α) : List α :=
  (buf.drop rpos).take (min can_read (size - rpos)) ++
    buf.take (can_read - min can_read (size - rpos))

/-- Per-channel part of `FrameRingBuffer::write`: copy `write1` input
frames to offset `wpos` and the remaining `can_write - write1` input
frames to the start of the channel buffer. -/
def chanWrite (size wpos can_write : Nat) (buf data : List α) : List α :=
  writeAt 0
    ((data.drop (min can_write (size - wpos))).take
      (can_write - min can_write (size - wpos)))
    (writeAt wpos (data.take (min can_write (size - wpos))) buf)

/-- `FrameRingBuffer::read (n_frames, frames)`: returns the frame count
actually read, the per-channel output data, and the updated buffer. -/
def FrameRingBuffer.read (rb : FrameRingBuffer α) (n_frames : Nat) :
    Nat × List (List α) × FrameRingBuffer α :=
  let rpos := rb.read_frame_pos_
  let can_read := min rb.get_readable_frames n_frames
  let outs := rb.channel_buffer_.map (chanRead rb.channel_buffer_size_ rpos can_read)
  (can_read, outs,
   { rb with read_frame_pos_ := (rpos + can_read) % rb.channel_buffer_size_ })

/-- `FrameRingBuffer::write (n_frames, frames)`: returns the frame count
actually written and the updated buffer.  The caller supplies one input
lane per channel (`frames.length = n_channels_`). -/
def FrameRingBuffer.write (rb : FrameRingBuffer α) (n_frames : Nat)
    (frames : List (List α)) : Nat × FrameRingBuffer α :=
  let wpos := rb.write_frame_pos_
  let can_write := min rb.get_writable_frames n_frames
  let bufs := rb.channel_buffer_.zipWith
    (chanWrite rb.channel_buffer_size_ wpos can_write) frames
  (can_write,
   { rb with channel_buffer_ := bufs,
             write_frame_pos_ := (wpos + can_write) % rb.channel_buffer_size_ })

/-- `FrameRingBuffer::get_total_n_frames`. -/
def FrameRingBuffer.get_total_n_frames (rb : FrameRingBuffer α) : Nat :=
  rb.channel_buffer_size_ - 1

/-- `FrameRingBuffer::get_n_channels`. -/
def FrameRingBuffer.get_n_channels (rb : FrameRingBuffer α) : Nat :=
  rb.n_channels_

/-- `FrameRingBuffer::clear`. -/
def FrameRingBuffer.clear (rb : FrameRingBuffer α) : FrameRingBuffer α :=
  { rb with read_frame_pos_ := 0, write_frame_pos_ := 0 }

/-- `FrameRingBuffer::resize (n_frames, n_channels)`. -/
def FrameRingBuffer.resize [Inhabited α] (rb : FrameRingBuffer α)
    (n_frames n_channels : Nat) : FrameRingBuffer α :=
  let bufs0 := vecResize rb.channel_buffer_ n_channels []
  let size := n_frames + 1
  let bufs := bufs0.map (fun b => vecResize b size default)
  { channel_buffer_ := bufs, read_frame_pos_ := 0, write_frame_pos_ := 0,
    channel_buffer_size_ := size, n_channels_ := n_channels }

/-- The constructor `FrameRingBuffer (n_frames, n_channels)` calls `resize`. -/
def FrameRingBuffer.new (α : Type) [Inhabited α] (n_frames n_channels : Nat) :
    FrameRingBuffer α :=
  FrameRingBuffer.resize ⟨[], 0, 0, 0, 0⟩ n_frames n_channels

/-- Structural well-formedness of a ring buffer: positions are in range,
the capacity is positive and every channel lane has the full capacity. -/
def FrameRingBuffer.WF (rb : FrameRingBuffer α) : Prop :=
  1 ≤ rb.channel_buffer_size_ ∧
  rb.read_frame_pos_ < rb.channel_buffer_size_ ∧
  rb.write_frame_pos_ < rb.channel_buffer_size_ ∧
  rb.channel_buffer_.length = rb.n_channels_ ∧
  ∀ b ∈ rb.channel_buffer_, b.length = rb.channel_buffer_size_

/-- States of a `FrameRingBuffer` reachable through its public API,
starting from construction.  Writes respect the caller contract of one
input lane per channel. -/
inductive FrameRingBuffer.Reachable [Inhabited α] : FrameRingBuffer α → Prop
  | base (n_frames n_channels : Nat) :
      Reachable (FrameRingBuffer.new α n_frames n_channels)
  | read (rb : FrameRingBuffer α) (n : Nat) :
      Reachable rb → Reachable (rb.read n).2.2
  | write (rb : FrameRingBuffer α) (n : Nat) (frames : List (List α)) :
      frames.length = rb.n_channels_ →
      Reachable rb → Reachable (rb.write n frames).2
  | clear (rb : FrameRingBuffer α) :
      Reachable rb → Reachable rb.clear
  | resize (rb : FrameRingBuffer α) (n_frames n_channels : Nat) :
      Reachable rb → Reachable (rb.resize n_frames n_channels)

/-! ### Ring-buffer index arithmetic -/

theorem get_readable_eq (rb : FrameRingBuffer α) (h : rb.WF) :
    rb.get_readable_frames =
      (rb.write_frame_pos_ + rb.channel_buffer_size_ - rb.read_frame_pos_) %
        rb.channel_buffer_size_ := by
  obtain ⟨h1, hr, hw, -, -⟩ := h
  unfold FrameRingBuffer.get_readable_frames
  by_cases hlt : rb.write_frame_pos_ < rb.read_frame_pos_
  · rw [if_pos hlt, Nat.mod_eq_of_lt (by omega)]
  · rw [if_neg hlt]
    have hs : rb.write_frame_pos_ + rb.channel_buffer_size_ - rb.read_frame_pos_ =
        (rb.write_frame_pos_ - rb.read_frame_pos_) + rb.channel_buffer_size_ := by omega
    rw [hs, Nat.add_mod_right, Nat.mod_eq_of_lt (by omega)]

theorem get_readable_le (rb : FrameRingBuffer α) (h : rb.WF) :
    rb.get_readable_frames ≤ rb.channel_buffer_size_ - 1 := by
  obtain ⟨h1, hr, hw, -, -⟩ := h
  unfold FrameRingBuffer.get_readable_frames
  split <;> omega

theorem get_writable_eq (rb : FrameRingBuffer α) (h : rb.WF) :
    rb.get_writable_frames =
      rb.channel_buffer_size_ - 1 - rb.get_readable_frames := by
  obtain ⟨h1, hr, hw, -, -⟩ := h
  unfold FrameRingBuffer.get_writable_frames FrameRingBuffer.get_readable_frames
  split <;> split <;> omega

theorem get_writable_le (rb : FrameRingBuffer α) (h : rb.WF) :
    rb.get_writable_frames ≤ rb.channel_buffer_size_ - 1 := by
  rw [get_writable_eq rb h]
  omega

theorem readable_add_writable (rb : FrameRingBuffer α) (h : rb.WF) :
    rb.get_readable_frames + rb.get_writable_frames = rb.get_total_n_frames := by
  have h2 := get_writable_eq rb h
  have h3 := get_readable_le rb h
  unfold FrameRingBuffer.get_total_n_frames
  omega

/-! ### Well-formedness preservation -/

theorem chanWrite_length {size wpos can_write : Nat} {buf data : List α}
    (hbuf : buf.length = size) (hw : wpos < size) (hc : can_write ≤ size - 1) :
    (chanWrite size wpos can_write buf data).length = size := by
  unfold chanWrite
  rw [writeAt_length, writeAt_length]
  · exact hbuf
  · simp only [List.length_take]
    omega
  · rw [writeAt_length]
    · simp only [List.length_take, List.length_drop]
      omega
    · simp only [List.length_take]
      omega

theorem chanWrite_zip_length {size wpos can_write : Nat}
    (hw : wpos < size) (hc : can_write ≤ size - 1) :
    ∀ (bufs datas : List (List α)), (∀ b ∈ bufs, b.length = size) →
      ∀ c ∈ List.zipWith (chanWrite size wpos can_write) bufs datas,
        c.length = size := by
  intro bufs
  induction bufs with
  | nil => intro datas _ c hcm; simp at hcm
  | cons b bs ih =>
    intro datas hb c hcm
    cases datas with
    | nil => simp at hcm
    | cons d ds =>
      simp only [List.zipWith_cons_cons, List.mem_cons] at hcm
      rcases hcm with rfl | hcm
      · exact chanWrite_length (hb b (List.mem_cons_self b bs)) hw hc
      · exact ih ds (fun x hx => hb x (List.mem_cons_of_mem b hx)) c hcm

theorem WF_read (rb : FrameRingBuffer α) (h : rb.WF) (n : Nat) :
    ((rb.read n).2.2).WF := by
  obtain ⟨h1, hr, hw, hc, hb⟩ := h
  exact ⟨h1, Nat.mod_lt _ (by omega), hw, hc, hb⟩

theorem WF_write (rb : FrameRingBuffer α) (h : rb.WF) (n : Nat)
    (frames : List (List α)) (hf : frames.length = rb.n_channels_) :
    ((rb.write n frames).2).WF := by
  have hwle := get_writable_le rb h
  obtain ⟨h1, hr, hw, hc, hb⟩ := h
  refine ⟨h1, hr, Nat.mod_lt _ (by omega), ?_, ?_⟩
  · simp only [FrameRingBuffer.write, List.length_zipWith]
    omega
  · intro c hcm
    exact chanWrite_zip_length hw (by omega) rb.channel_buffer_ frames hb c hcm

theorem WF_clear (rb : FrameRingBuffer α) (h : rb.WF) : rb.clear.WF := by
  obtain ⟨h1, hr, hw, hc, hb⟩ := h
  refine ⟨h1, ?_, ?_, hc, hb⟩ <;>
    · show (0 : Nat) < rb.channel_buffer_size_
      omega

theorem WF_resize [Inhabited α] (rb : FrameRingBuffer α) (n_frames n_channels : Nat) :
    (rb.resize n_frames n_channels).WF := by
  refine ⟨?_, ?_, ?_, ?_, ?_⟩
  · show 1 ≤ n_frames + 1
    omega
  · show 0 < n_frames + 1
    omega
  · show 0 < n_frames + 1
    omega
  · simp only [FrameRingBuffer.resize, List.length_map, vecResize_length]
  · intro b hbm
    simp only [FrameRingBuffer.resize, List.mem_map] at hbm
    obtain ⟨b0, -, rfl⟩ := hbm
    exact vecResize_length b0 _ _

theorem Reachable_WF [Inhabited α] (rb : FrameRingBuffer α)
    (h : FrameRingBuffer.Reachable rb) : rb.WF := by
  induction h with
  | base n_frames n_channels => exact WF_resize _ n_frames n_channels
  | read rb n _ ih => exact WF_read rb ih n
  | write rb n frames hf _ ih => exact WF_write rb ih n frames hf
  | clear rb _ ih => exact WF_clear rb ih
  | resize rb n_frames n_channels _ ih => exact WF_resize rb n_frames n_channels

/-! ### Round-trip: writing into an empty position range and reading it back -/

theorem chanRead_chanWrite (size p N : Nat) (buf data : List α)
    (hbuf : buf.length = size) (hp : p < size) (hN : N < size)
    (hdata : data.length = N) :
    chanRead size p N (chanWrite size p N buf data) = data := by
  unfold chanRead chanWrite writeAt
  rcases le_or_lt N (size - p) with hcase | hcase
  · -- no wrap-around: a single contiguous copy
    have hw1 : min N (size - p) = N := min_eq_left hcase
    have htake : data.take N = data := by rw [← hdata, List.take_length]
    rw [hw1, htake, Nat.sub_self]
    simp only [List.take_zero, List.nil_append, List.length_nil,
      Nat.add_zero, List.drop_zero, List.append_nil]
    have hlen : (buf.take p).length = p := by
      rw [List.length_take]
      omega
    rw [List.append_assoc, List.drop_left' hlen, List.take_left' hdata]
  · -- wrap-around: two copies on each side
    have hw1 : min N (size - p) = size - p := min_eq_right (le_of_lt hcase)
    have hd1len : (data.take (size - p)).length = size - p := by
      rw [List.length_take]
      omega
    have hd2len : (data.drop (size - p)).length = N - (size - p) := by
      rw [List.length_drop, hdata]
    have hd2 : (data.drop (size - p)).take (N - (size - p)) =
        data.drop (size - p) := List.take_of_length_le (le_of_eq hd2len)
    have hdropnil : buf.drop (p + (data.take (size - p)).length) = [] := by
      rw [hd1len]
      have hps : p + (size - p) = buf.length := by omega
      rw [hps, List.drop_length]
    rw [hw1, hd2, hdropnil, List.append_nil, List.take_zero, List.nil_append,
      Nat.zero_add]
    -- the buffer after the wrapped write
    have hinner : (buf.take p ++ data.take (size - p)).drop p =
        data.take (size - p) :=
      List.drop_left' (by rw [List.length_take]; omega)
    rw [List.drop_append_eq_append_drop,
      List.drop_eq_nil_of_le (by rw [hd2len]; omega), List.nil_append,
      hd2len, List.drop_drop]
    have hpe : N - (size - p) + (p - (N - (size - p))) = p := by omega
    rw [hpe, hinner, List.take_take, min_self, List.take_left' hd2len]
    exact List.take_append_drop (size - p) data

/-- Multichannel lift of the round-trip lemma. -/
theorem zip_map_roundtrip (size p N : Nat) (hp : p < size) (hN : N < size) :
    ∀ (bufs datas : List (List α)), bufs.length = datas.length →
      (∀ b ∈ bufs, b.length = size) → (∀ d ∈ datas, d.length = N) →
      (List.zipWith (chanWrite size p N) bufs datas).map (chanRead size p N) =
        datas := by
  intro bufs
  induction bufs with
  | nil =>
    intro datas hlen _ _
    cases datas with
    | nil => simp
    | cons d ds => simp at hlen
  | cons b bs ih =>
    intro datas hlen hb hd
    cases datas with
    | nil => simp at hlen
    | cons d ds =>
      simp only [List.zipWith_cons_cons, List.map_cons, List.cons.injEq]
      constructor
      · exact chanRead_chanWrite size p N b d (hb b (List.mem_cons_self b bs))
          hp hN (hd d (List.mem_cons_self d ds))
      · exact ih ds (by simpa using hlen)
          (fun x hx => hb x (List.mem_cons_of_mem b hx))
          (fun x hx => hd x (List.mem_cons_of_mem d hx))

theorem readable_mod (size p N : Nat) (hp : p < size) (hN : N < size) :
    (if (p + N) % size < p then (p + N) % size + size - p
     else (p + N) % size - p) = N := by
  rcases lt_or_ge (p + N) size with h | h
  · rw [Nat.mod_eq_of_lt h]
    split <;> omega
  · have hm : (p + N) % size = p + N - size := by
      rw [Nat.mod_eq_sub_mod h, Nat.mod_eq_of_lt (by omega)]
    rw [hm]
    split <;> omega

theorem empty_pos_eq (rb : FrameRingBuffer α) (hwf : rb.WF)
    (hempty : rb.get_readable_frames = 0) :
    rb.write_frame_pos_ = rb.read_frame_pos_ := by
  obtain ⟨h1, hr, hw, -, -⟩ := hwf
  unfold FrameRingBuffer.get_readable_frames at hempty
  split at hempty <;> omega

/-- Helper: writing `N` frames into an empty ring buffer and reading `N`
frames back transfers `N` frames in each direction and returns exactly the
written per-channel data. -/
theorem write_read_empty (rb : FrameRingBuffer α) (N : Nat)
    (datas : List (List α)) (hwf : rb.WF)
    (hempty : rb.get_readable_frames = 0)
    (hlen : datas.length = rb.n_channels_)
    (hN : ∀ d ∈ datas, d.length = N)
    (hfits : N ≤ rb.get_writable_frames) :
    (rb.write N datas).1 = N ∧ ((rb.write N datas).2.read N).1 = N ∧
      ((rb.write N datas).2.read N).2.1 = datas := by
  have hpw := empty_pos_eq rb hwf hempty
  have hwr := get_writable_eq rb hwf
  obtain ⟨h1, hr, hw, hc, hb⟩ := hwf
  have hNlt : N < rb.channel_buffer_size_ := by omega
  have hcw : min rb.get_writable_frames N = N := min_eq_right (by omega)
  have hread : (rb.write N datas).2.get_readable_frames = N := by
    simp only [FrameRingBuffer.write, FrameRingBuffer.get_readable_frames]
    rw [hcw, hpw]
    exact readable_mod rb.channel_buffer_size_ rb.read_frame_pos_ N hr hNlt
  refine ⟨hcw, ?_, ?_⟩
  · show min (rb.write N datas).2.get_readable_frames N = N
    rw [hread, min_self]
  · show ((rb.write N datas).2.channel_buffer_.map
      (chanRead (rb.write N datas).2.channel_buffer_size_
        (rb.write N datas).2.read_frame_pos_
        (min (rb.write N datas).2.get_readable_frames N))) = datas
    rw [hread, min_self]
    show (rb.channel_buffer_.zipWith
        (chanWrite rb.channel_buffer_size_ rb.write_frame_pos_
          (min rb.get_writable_frames N)) datas).map
      (chanRead rb.channel_buffer_size_ rb.read_frame_pos_ N) = datas
    rw [hcw, hpw]
    exact zip_map_roundtrip rb.channel_buffer_size_ rb.read_frame_pos_ N hr
      hNlt rb.channel_buffer_ datas (by omega) hb hN

theorem readable_advance (s w r c : Nat) (hw : w < s) (hr : r < s)
    (hc : (if w < r then w + s - r else w - r) + c ≤ s - 1) :
    (if (w + c) % s < r then (w + c) % s + s - r else (w + c) % s - r) =
      (if w < r then w + s - r else w - r) + c := by
  by_cases hb : w < r
  · rw [if_pos hb] at hc ⊢
    rcases lt_or_ge (w + c) s with h | h
    · rw [Nat.mod_eq_of_lt h]
      split <;> omega
    · omega
  · rw [if_neg hb] at hc ⊢
    rcases lt_or_ge (w + c) s with h | h
    · rw [Nat.mod_eq_of_lt h]
      split <;> omega
    · have hm : (w + c) % s = w + c - s := by
        rw [Nat.mod_eq_sub_mod h, Nat.mod_eq_of_lt (by omega)]
      rw [hm]
      split <;> omega

/-- Writing advances the readable count by exactly the transferred frames. -/
theorem get_readable_write (rb : FrameRingBuffer α) (hwf : rb.WF) (n : Nat)
    (datas : List (List α)) :
    (rb.write n datas).2.get_readable_frames =
      rb.get_readable_frames + min rb.get_writable_frames n := by
  have hwr := get_writable_eq rb hwf
  have hrle := get_readable_le rb hwf
  obtain ⟨h1, hr, hw, -, -⟩ := hwf
  have hc : rb.get_readable_frames + min rb.get_writable_frames n ≤
      rb.channel_buffer_size_ - 1 := by
    have hm := min_le_left rb.get_writable_frames n
    omega
  simp only [FrameRingBuffer.write, FrameRingBuffer.get_readable_frames]
  exact readable_advance rb.channel_buffer_size_ rb.write_frame_pos_
    rb.read_frame_pos_ (min rb.get_writable_frames n) hw hr hc

theorem chanRead_length {size rpos can_read : Nat} {buf : List α}
    (hbuf : buf.length = size) (hr : rpos < size) (hc : can_read ≤ size - 1) :
    (chanRead size rpos can_read buf).length = can_read := by
  unfold chanRead
  simp only [List.length_append, List.length_take, List.length_drop, hbuf]
  omega

/-- C1 (corrected): the claim quantifies over every starting read/write
index, but when the indices differ the buffer already holds older frames
and a read of `N` frames returns those first; starting from a non-empty
buffer refutes the claim (see the counterexample).  Amendment: for every
starting position with the buffer empty (read index equal to write index,
which still covers arbitrary wrap-around of the internal buffer), a write
of `N` frames (`N` at most the writable count) followed by a read of `N`
frames transfers `N` frames each way and returns exactly the written
frames per channel, in order, with no reordering or duplication. -/
theorem C1_write_then_read_returns_written (rb : FrameRingBuffer α) (N : Nat)
    (datas : List (List α)) (hwf : rb.WF)
    (hempty : rb.get_readable_frames = 0)
    (hlen : datas.length = rb.n_channels_)
    (hN : ∀ d ∈ datas, d.length = N)
    (hfits : N ≤ rb.get_writable_frames) :
    (rb.write N datas).1 = N ∧ ((rb.write N datas).2.read N).1 = N ∧
      ((rb.write N datas).2.read N).2.1 = datas :=
  write_read_empty rb N datas hwf hempty hlen hN hfits

/-- C1 counterexample: a well-formed ring buffer whose read index (0) and
write index (1) differ holds one older frame (value 5); writing one frame
(value 99, within the writable count) and reading one frame back returns
the old frame 5, not the written frame. -/
theorem C1_counterexample :
    (FrameRingBuffer.WF (⟨[[5, 0, 0]], 0, 1, 3, 1⟩ : FrameRingBuffer Int)) ∧
    1 ≤ (⟨[[5, 0, 0]], 0, 1, 3, 1⟩ : FrameRingBuffer Int).get_writable_frames ∧
    (((⟨[[5, 0, 0]], 0, 1, 3, 1⟩ : FrameRingBuffer Int).write 1
        [[99]]).2.read 1).2.1 = [[5]] ∧
    (((⟨[[5, 0, 0]], 0, 1, 3, 1⟩ : FrameRingBuffer Int).write 1
        [[99]]).2.read 1).2.1 ≠ [[99]] := by
  refine ⟨⟨by decide, by decide, by decide, by decide, ?_⟩, by decide, by decide, by decide⟩
  decide

/-- C1 witness: a concrete wrap-around instance of the amended claim
(size-3 internal buffer, start position 2, two channels, two frames). -/
theorem C1_witness :
    ((⟨[[0, 0, 0], [0, 0, 0]], 2, 2, 3, 2⟩ : FrameRingBuffer Int).write 2
        [[7, 8], [9, 10]]).1 = 2 ∧
    (((⟨[[0, 0, 0], [0, 0, 0]], 2, 2, 3, 2⟩ : FrameRingBuffer Int).write 2
        [[7, 8], [9, 10]]).2.read 2).1 = 2 ∧
    (((⟨[[0, 0, 0], [0, 0, 0]], 2, 2, 3, 2⟩ : FrameRingBuffer Int).write 2
        [[7, 8], [9, 10]]).2.read 2).2.1 = [[7, 8], [9, 10]] :=
  C1_write_then_read_returns_written ⟨[[0, 0, 0], [0, 0, 0]], 2, 2, 3, 2⟩ 2
    [[7, 8], [9, 10]] ⟨by decide, by decide, by decide, by decide, by decide⟩
    (by decide) (by decide) (by decide) (by decide)

/-- C2 (confirmed): `read` transfers and returns exactly
`min (readable, n)` frames and `write` transfers and returns exactly
`min (writable, n)` frames, without blocking; in particular a write
requesting more than the writable count transfers exactly the writable
count.  "Transfers" is witnessed by the per-channel output length for
`read` and by the growth of the readable count for `write`. -/
theorem C2_nonblocking_min_transfer (rb : FrameRingBuffer α) (n : Nat)
    (datas : List (List α)) (hwf : rb.WF) :
    (rb.read n).1 = min rb.get_readable_frames n ∧
    (∀ out ∈ (rb.read n).2.1, out.length = min rb.get_readable_frames n) ∧
    (rb.write n datas).1 = min rb.get_writable_frames n ∧
    (rb.write n datas).2.get_readable_frames =
      rb.get_readable_frames + min rb.get_writable_frames n ∧
    (rb.get_writable_frames ≤ n →
      (rb.write n datas).1 = rb.get_writable_frames) := by
  refine ⟨rfl, ?_, rfl, get_readable_write rb hwf n datas, ?_⟩
  · intro out hout
    have hrle := get_readable_le rb hwf
    obtain ⟨h1, hr, hw, hc, hb⟩ := hwf
    simp only [FrameRingBuffer.read, List.mem_map] at hout
    obtain ⟨buf, hbm, rfl⟩ := hout
    exact chanRead_length (hb buf hbm) hr
      (by have := min_le_left rb.get_readable_frames n; omega)
  · intro hle
    show min rb.get_writable_frames n = rb.get_writable_frames
    exact min_eq_left hle

/-- C2 witness: concrete instance with `n` exceeding both the readable
and the writable count. -/
theorem C2_witness :
    ((⟨[[5, 0, 0]], 0, 1, 3, 1⟩ : FrameRingBuffer Int).read 7).1 =
      min (⟨[[5, 0, 0]], 0, 1, 3, 1⟩ : FrameRingBuffer Int).get_readable_frames 7 ∧
    (∀ out ∈ ((⟨[[5, 0, 0]], 0, 1, 3, 1⟩ : FrameRingBuffer Int).read 7).2.1,
      out.length =
        min (⟨[[5, 0, 0]], 0, 1, 3, 1⟩ : FrameRingBuffer Int).get_readable_frames 7) ∧
    ((⟨[[5, 0, 0]], 0, 1, 3, 1⟩ : FrameRingBuffer Int).write 7 [[4, 4]]).1 =
      min (⟨[[5, 0, 0]], 0, 1, 3, 1⟩ : FrameRingBuffer Int).get_writable_frames 7 ∧
    ((⟨[[5, 0, 0]], 0, 1, 3, 1⟩ : FrameRingBuffer Int).write 7
        [[4, 4]]).2.get_readable_frames =
      (⟨[[5, 0, 0]], 0, 1, 3, 1⟩ : FrameRingBuffer Int).get_readable_frames +
        min (⟨[[5, 0, 0]], 0, 1, 3, 1⟩ : FrameRingBuffer Int).get_writable_frames 7 ∧
    ((⟨[[5, 0, 0]], 0, 1, 3, 1⟩ : FrameRingBuffer Int).get_writable_frames ≤ 7 →
      ((⟨[[5, 0, 0]], 0, 1, 3, 1⟩ : FrameRingBuffer Int).write 7 [[4, 4]]).1 =
        (⟨[[5, 0, 0]], 0, 1, 3, 1⟩ : FrameRingBuffer Int).get_writable_frames) :=
  C2_nonblocking_min_transfer ⟨[[5, 0, 0]], 0, 1, 3, 1⟩ 7 [[4, 4]]
    ⟨by decide, by decide, by decide, by decide, by decide⟩

/-- C6 (confirmed): in every reachable state, the readable count equals
`(write_pos - read_pos) mod capacity` (integer arithmetic), the writable
count equals `capacity - readable - 1`, and hence
`readable + writable = C` with `readable ≤ C`, where `C` is the total
frame count (the capacity is stored internally as `C + 1` slots). -/
theorem C6_reachable_index_invariants [Inhabited α] (rb : FrameRingBuffer α)
    (h : rb.Reachable) :
    (rb.get_readable_frames : Int) =
      ((rb.write_frame_pos_ : Int) - rb.read_frame_pos_) %
        (rb.channel_buffer_size_ : Int) ∧
    rb.get_writable_frames = rb.channel_buffer_size_ - rb.get_readable_frames - 1 ∧
    rb.get_readable_frames + rb.get_writable_frames = rb.get_total_n_frames ∧
    rb.get_readable_frames ≤ rb.get_total_n_frames := by
  have hwf := Reachable_WF rb h
  have h0 := get_readable_eq rb hwf
  have h2 := get_writable_eq rb hwf
  have h3 := readable_add_writable rb hwf
  have h4 := get_readable_le rb hwf
  obtain ⟨h1, hr, hw, -, -⟩ := hwf
  refine ⟨?_, by omega, h3, ?_⟩
  · rw [h0]
    have hle : rb.read_frame_pos_ ≤
        rb.write_frame_pos_ + rb.channel_buffer_size_ := by omega
    push_cast [hle]
    have hrw : (rb.write_frame_pos_ : Int) + rb.channel_buffer_size_ -
        rb.read_frame_pos_ =
        (rb.write_frame_pos_ : Int) - rb.read_frame_pos_ +
          rb.channel_buffer_size_ := by ring
    rw [hrw]
    simp
  · unfold FrameRingBuffer.get_total_n_frames
    omega

/-- C6 witness: the state reached from a fresh 3-frame 2-channel buffer
after writing two frames. -/
theorem C6_witness :
    ((((FrameRingBuffer.new Int 3 2).write 2
        [[1, 2], [3, 4]]).2.get_readable_frames : Int) =
      ((((FrameRingBuffer.new Int 3 2).write 2
          [[1, 2], [3, 4]]).2.write_frame_pos_ : Int) -
        ((FrameRingBuffer.new Int 3 2).write 2
          [[1, 2], [3, 4]]).2.read_frame_pos_) %
        ((((FrameRingBuffer.new Int 3 2).write 2
          [[1, 2], [3, 4]]).2.channel_buffer_size_ : Nat) : Int)) ∧
    ((FrameRingBuffer.new Int 3 2).write 2 [[1, 2], [3, 4]]).2.get_writable_frames =
      ((FrameRingBuffer.new Int 3 2).write 2
        [[1, 2], [3, 4]]).2.channel_buffer_size_ -
        ((FrameRingBuffer.new Int 3 2).write 2
          [[1, 2], [3, 4]]).2.get_readable_frames - 1 ∧
    ((FrameRingBuffer.new Int 3 2).write 2
        [[1, 2], [3, 4]]).2.get_readable_frames +
      ((FrameRingBuffer.new Int 3 2).write 2
        [[1, 2], [3, 4]]).2.get_writable_frames =
      ((FrameRingBuffer.new Int 3 2).write 2
        [[1, 2], [3, 4]]).2.get_total_n_frames ∧
    ((FrameRingBuffer.new Int 3 2).write 2
        [[1, 2], [3, 4]]).2.get_readable_frames ≤
      ((FrameRingBuffer.new Int 3 2).write 2
        [[1, 2], [3, 4]]).2.get_total_n_frames :=
  C6_reachable_index_invariants _
    (FrameRingBuffer.Reachable.write _ 2 [[1, 2], [3, 4]] (by decide)
      (FrameRingBuffer.Reachable.base 3 2))

/-! ### JackPcmDriver::open ring-buffer initialization
(src/unnamed/part_000, lines 620-663) -/

/-- `buffer_frames = max (min_buffer_frames, user_buffer_frames)` where
`min_buffer_frames = jack_get_buffer_size * 2 + config.block_length` and
`user_buffer_frames = config.latency_ms * config.mix_freq / 1000`. -/
def jackBufferFrames (jack_buffer_size block_length latency_ms mix_freq : Nat) : Nat :=
  max (jack_buffer_size * 2 + block_length) (latency_ms * mix_freq / 1000)

/-- The output-ring initialization of `JackPcmDriver::open`: resize the
output ring buffer to `buffer_frames` frames and `n_channels` channels,
then write `buffer_frames` frames of silence into it (each channel lane
points at the same `get_total_n_frames`-long zero vector).  Returns
`frames_written` and the primed ring. -/
def jackOpenOutputRing (α : Type) [Inhabited α] [Zero α]
    (jack_buffer_size block_length latency_ms mix_freq n_channels : Nat) :
    Nat × FrameRingBuffer α :=
  let buffer_frames := jackBufferFrames jack_buffer_size block_length latency_ms mix_freq
  let ring := (FrameRingBuffer.new α 0 1).resize buffer_frames n_channels
  let silence : List α := List.replicate ring.get_total_n_frames 0
  let silence_buffers := List.replicate ring.get_n_channels silence
  ring.write buffer_frames silence_buffers

/-- C7 (confirmed): at JACK PCM driver open the ring is sized to
`buffer_frames = max (2 * jack_buffer_size + block_length,
latency_ms * mix_freq / 1000)` frames, and the output ring is primed with
exactly `buffer_frames` frames of silence, leaving it completely full
(readable = buffer_frames, writable = 0) before the first callback. -/
theorem C7_jack_open_sizing_and_priming (α : Type) [Inhabited α] [Zero α]
    (jack block latency freq nch : Nat) :
    (jackOpenOutputRing α jack block latency freq nch).2.get_total_n_frames =
      max (2 * jack + block) (latency * freq / 1000) ∧
    (jackOpenOutputRing α jack block latency freq nch).1 =
      max (2 * jack + block) (latency * freq / 1000) ∧
    (jackOpenOutputRing α jack block latency freq nch).2.get_readable_frames =
      max (2 * jack + block) (latency * freq / 1000) ∧
    (jackOpenOutputRing α jack block latency freq nch).2.get_writable_frames = 0 ∧
    ((jackOpenOutputRing α jack block latency freq nch).2.read
        (max (2 * jack + block) (latency * freq / 1000))).2.1 =
      List.replicate nch
        (List.replicate (max (2 * jack + block) (latency * freq / 1000)) (0 : α)) := by
  have hbf : jackBufferFrames jack block latency freq =
      max (2 * jack + block) (latency * freq / 1000) := by
    unfold jackBufferFrames
    rw [Nat.mul_comm]
  set bf := jackBufferFrames jack block latency freq with hbfdef
  set r0 : FrameRingBuffer α := (FrameRingBuffer.new α 0 1).resize bf nch with hr0
  have hwf0 : r0.WF := WF_resize _ bf nch
  have hempty : r0.get_readable_frames = 0 := rfl
  have htot : r0.get_total_n_frames = bf := rfl
  have hnch : r0.n_channels_ = nch := rfl
  have hwritable : r0.get_writable_frames = bf := by
    rw [get_writable_eq r0 hwf0, hempty]
    show bf + 1 - 1 - 0 = bf
    omega
  have hlen : (List.replicate nch (List.replicate bf (0 : α))).length =
      r0.n_channels_ := by
    rw [List.length_replicate, hnch]
  have hN : ∀ d ∈ List.replicate nch (List.replicate bf (0 : α)),
      d.length = bf := by
    intro d hd
    rw [List.eq_of_mem_replicate hd, List.length_replicate]
  have hmain := write_read_empty r0 bf
    (List.replicate nch (List.replicate bf (0 : α))) hwf0 hempty hlen hN
    (by rw [hwritable])
  have hjo : jackOpenOutputRing α jack block latency freq nch =
      r0.write bf (List.replicate nch (List.replicate bf (0 : α))) := rfl
  have hreadable := get_readable_write r0 hwf0 bf
    (List.replicate nch (List.replicate bf (0 : α)))
  rw [hempty, hwritable, min_self, Nat.zero_add] at hreadable
  have hwf1 := WF_write r0 hwf0 bf
    (List.replicate nch (List.replicate bf (0 : α))) hlen
  have hwr1 := get_writable_eq _ hwf1
  refine ⟨?_, ?_, ?_, ?_, ?_⟩
  · rw [hjo, ← hbf]
    exact htot
  · rw [hjo, ← hbf]
    exact hmain.1
  · rw [hjo, ← hbf]
    exact hreadable
  · rw [hjo, hwr1, hreadable]
    show bf + 1 - 1 - bf = 0
    omega
  · rw [hjo, ← hbf]
    exact hmain.2.2

/-! ### Lock-free job queues and process_jobs
(src/ase/engine.cc, lines 399-411 and 556-594) -/

/-- `AtomicIntrusiveStack`: an intrusive LIFO stack; the head of `items`
is the top of the stack (most recently pushed node). -/
structure AtomicIntrusiveStack (α : Type) where
  items : List α

/-- `push` prepends a node and reports whether the stack was empty. -/
def AtomicIntrusiveStack.push (s : AtomicIntrusiveStack α) (a : α) :
    Bool × AtomicIntrusiveStack α :=
  (s.items.isEmpty, ⟨a :: s.items⟩)

/-- `pop_reversed`: atomically take the whole chain and reverse it, so the
result is in submission (FIFO) order. -/
def AtomicIntrusiveStack.pop_reversed (s : AtomicIntrusiveStack α) :
    List α × AtomicIntrusiveStack α :=
  (s.items.reverse, ⟨[]⟩)

/-- `pop_all`: atomically take the whole chain in stack order. -/
def AtomicIntrusiveStack.pop_all (s : AtomicIntrusiveStack α) :
    List α × AtomicIntrusiveStack α :=
  (s.items, ⟨[]⟩)

/-- Sequential pushes from a single thread, in submission order. -/
def pushSeq (s : AtomicIntrusiveStack α) (js : List α) :
    AtomicIntrusiveStack α :=
  js.foldl (fun acc j => (acc.push j).2) s

/-- `AudioEngineThread::process_jobs`: pop the entire stack reversed, run
every job in that order over the engine state, and return the executed
chain (which the engine then pushes onto the trash queue). -/
def process_jobs (jobs : AtomicIntrusiveStack (σ → σ)) (st : σ) :
    σ × List (σ → σ) :=
  ((jobs.pop_reversed).1.foldl (fun s f => f s) st, (jobs.pop_reversed).1)

theorem pushSeq_items (s : AtomicIntrusiveStack α) (js : List α) :
    (pushSeq s js).items = js.reverse ++ s.items := by
  induction js generalizing s with
  | nil => simp [pushSeq]
  | cons j t ih =>
    show (pushSeq ⟨j :: s.items⟩ t).items = (j :: t).reverse ++ s.items
    rw [ih ⟨j :: s.items⟩]
    simp

theorem foldl_append_jobs (l : List Nat) :
    ∀ acc : List Nat,
      ((l.map (fun i => fun v => v ++ [i])).foldl (fun s f => f s) acc) =
        acc ++ l := by
  induction l with
  | nil => intro acc; simp
  | cons i t ih =>
    intro acc
    simp only [List.map_cons, List.foldl_cons]
    rw [ih (acc ++ [i])]
    simp

/-- C5 (confirmed): `process_jobs` pops the whole intrusive stack and
reverses it before running the callables, so jobs pushed sequentially
from one thread execute in submission (FIFO) order; in particular 1000
jobs appending 0..999 to a list yield the list 0..999 after one
dispatch. -/
theorem C5_async_jobs_fifo (σ : Type) (js : List (σ → σ)) (init : σ) :
    ((process_jobs (pushSeq ⟨[]⟩ js) init).1 =
        js.foldl (fun s f => f s) init ∧
      (process_jobs (pushSeq ⟨[]⟩ js) init).2 = js) ∧
    (process_jobs
        (pushSeq ⟨[]⟩ ((List.range 1000).map (fun i => fun v => v ++ [i])))
        ([] : List Nat)).1 = List.range 1000 := by
  have hitems : ∀ (τ : Type) (ks : List τ),
      (pushSeq (⟨[]⟩ : AtomicIntrusiveStack τ) ks).items = ks.reverse := by
    intro τ ks
    rw [pushSeq_items]
    simp
  refine ⟨⟨?_, ?_⟩, ?_⟩
  · simp only [process_jobs, AtomicIntrusiveStack.pop_reversed]
    rw [hitems, List.reverse_reverse]
  · simp only [process_jobs, AtomicIntrusiveStack.pop_reversed]
    rw [hitems, List.reverse_reverse]
  · simp only [process_jobs, AtomicIntrusiveStack.pop_reversed]
    rw [hitems, List.reverse_reverse, foldl_append_jobs]
    simp

/-! ### Capture writer management
(src/ase/engine.cc, lines 347-383) -/

/-- The capture-related state of `AudioEngineThread`.  `wwriter` is the
attached wave-writer handle; `closed` records every writer closed so far
(`WaveWriter::close` calls observed in order). -/
structure CaptureState where
  wwriter : Option Nat
  closed : List Nat
  output_needsrunning : Bool
deriving DecidableEq

/-- `AudioEngineThread::capture_stop`: close and drop the writer, if any. -/
def capture_stop (st : CaptureState) : CaptureState :=
  match st.wwriter with
  | some w => { st with wwriter := none, closed := st.closed ++ [w] }
  | none => st

/-- Modelled from the spec: the `Ase::string_endswith` utility (its
implementation lives outside the selected sources); it tests whether the
filename ends with the given suffix.  Filenames are character lists. -/
def string_endswith (s sfx : List Char) : Bool :=
  List.isSuffixOf sfx s

/-- `AudioEngineThread::capture_start`.  The external encoder constructors
`wave_writer_create_wav/opus/flac` are passed in as oracles returning the
new writer handle on success and `none` on open failure. -/
def capture_start (st : CaptureState) (filename : List Char) (needsrunning : Bool)
    (create_wav create_opus create_flac : List Char → Option Nat) : CaptureState :=
  let st1 := capture_stop st
  let st2 := { st1 with output_needsrunning := needsrunning }
  if string_endswith filename ".wav".data then
    { st2 with wwriter := create_wav filename }
  else if string_endswith filename ".opus".data then
    { st2 with wwriter := create_opus filename }
  else if string_endswith filename ".flac".data then
    { st2 with wwriter := create_flac filename }
  else st2

/-- C10 (confirmed): `capture_start` always first closes any currently
attached writer (before examining the new filename); afterwards a writer
is attached only if the filename ends in `.wav`, `.opus` or `.flac` and
the corresponding creator succeeds, and for any other filename (or on
open failure) no writer is attached, leaving capture stopped. -/
theorem C10_capture_start_stops_then_opens (st : CaptureState)
    (filename : List Char) (needsrunning : Bool)
    (create_wav create_opus create_flac : List Char → Option Nat) :
    (∀ w, st.wwriter = some w →
      w ∈ (capture_start st filename needsrunning
        create_wav create_opus create_flac).closed) ∧
    (∀ w, (capture_start st filename needsrunning
        create_wav create_opus create_flac).wwriter = some w →
      (string_endswith filename ".wav".data = true ∧
        create_wav filename = some w) ∨
      (string_endswith filename ".wav".data = false ∧
        string_endswith filename ".opus".data = true ∧
        create_opus filename = some w) ∨
      (string_endswith filename ".wav".data = false ∧
        string_endswith filename ".opus".data = false ∧
        string_endswith filename ".flac".data = true ∧
        create_flac filename = some w)) ∧
    (string_endswith filename ".wav".data = false →
      string_endswith filename ".opus".data = false →
      string_endswith filename ".flac".data = false →
      (capture_start st filename needsrunning
        create_wav create_opus create_flac).wwriter = none) := by
  have hstop : ∀ w, st.wwriter = some w → w ∈ (capture_stop st).closed := by
    intro w hw
    unfold capture_stop
    rw [hw]
    simp
  have hstopnone : (capture_stop st).wwriter = none := by
    unfold capture_stop
    cases h : st.wwriter with
    | none => exact h
    | some w => rfl
  have hclosed : (capture_start st filename needsrunning
      create_wav create_opus create_flac).closed = (capture_stop st).closed := by
    unfold capture_start
    split
    · rfl
    · split
      · rfl
      · split <;> rfl
  refine ⟨?_, ?_, ?_⟩
  · intro w hw
    rw [hclosed]
    exact hstop w hw
  · intro w hw
    unfold capture_start at hw
    by_cases h1 : string_endswith filename ".wav".data = true
    · rw [if_pos h1] at hw
      exact Or.inl ⟨h1, hw⟩
    · have h1f : string_endswith filename ".wav".data = false := by
        cases hb : string_endswith filename ".wav".data <;> simp_all
      rw [if_neg h1] at hw
      by_cases h2 : string_endswith filename ".opus".data = true
      · rw [if_pos h2] at hw
        exact Or.inr (Or.inl ⟨h1f, h2, hw⟩)
      · have h2f : string_endswith filename ".opus".data = false := by
          cases hb : string_endswith filename ".opus".data <;> simp_all
        rw [if_neg h2] at hw
        by_cases h3 : string_endswith filename ".flac".data = true
        · rw [if_pos h3] at hw
          exact Or.inr (Or.inr ⟨h1f, h2f, h3, hw⟩)
        · rw [if_neg h3] at hw
          rw [show ({ capture_stop st with output_needsrunning := needsrunning } :
              CaptureState).wwriter = (capture_stop st).wwriter from rfl,
            hstopnone] at hw
          cases hw
  · intro h1 h2 h3
    unfold capture_start
    rw [if_neg (by simp [h1]), if_neg (by simp [h2]), if_neg (by simp [h3])]
    exact hstopnone

/-- C10 witness: starting capture with an unrecognized filename closes the
previously attached writer 7 and leaves no writer attached. -/
theorem C10_witness :
    7 ∈ (capture_start ⟨some 7, [], false⟩ "song.bin".data true
      (fun _ => some 42) (fun _ => some 43) (fun _ => some 44)).closed ∧
    (capture_start ⟨some 7, [], false⟩ "song.bin".data true
      (fun _ => some 42) (fun _ => some 43) (fun _ => some 44)).wwriter = none :=
  ⟨(C10_capture_start_stops_then_opens ⟨some 7, [], false⟩ "song.bin".data true
      (fun _ => some 42) (fun _ => some 43) (fun _ => some 44)).1 7 rfl,
   (C10_capture_start_stops_then_opens ⟨some 7, [], false⟩ "song.bin".data true
      (fun _ => some 42) (fun _ => some 43) (fun _ => some 44)).2.2
      (by decide) (by decide) (by decide)⟩

/-! ### Scheduler: AudioEngineThread::schedule_add
(src/ase/engine.cc, lines 157-187)

`AudioProcessor` scheduling state: the `SCHEDULED` flag bit, the
`sched_next_` intrusive link and the processor's `render_stamp_`.
Processors live in a pool indexed by id; the schedule stores the layer
head pointers.  `reset_state` itself lives outside the selected sources,
so `schedule_add` reports whether it was invoked. -/

structure SchedProc where
  scheduled : Bool
  schedNext : Option Nat
  renderStamp : Nat
deriving DecidableEq

/-- Default processor value for out-of-pool lookups. -/
def noProc : SchedProc := ⟨false, none, 0⟩

structure EngineSched where
  schedule : List (Option Nat)
  procs : List SchedProc
  renderStamp : Nat
deriving DecidableEq

/-- Processor lookup by id. -/
def EngineSched.proc (e : EngineSched) (q : Nat) : SchedProc :=
  e.procs.getD q noProc

/-- `AudioEngineThread::schedule_add (aproc, level)`: a no-op when the
`SCHEDULED` flag is set; otherwise grow the layer vector to length
`level + 1`, push the processor onto the head of `layers[level]` via its
`sched_next` link, set `SCHEDULED`, and invoke `reset_state` (reported by
the returned Bool) iff the processor's render stamp differs from the
engine's. -/
def schedule_add (e : EngineSched) (p level : Nat) : EngineSched × Bool :=
  if (e.proc p).scheduled then (e, false)
  else
    let sched := if e.schedule.length ≤ level then
        e.schedule ++ List.replicate (level + 1 - e.schedule.length) none
      else e.schedule
    ({ e with
        schedule := sched.set level (some p),
        procs := e.procs.set p
          { e.proc p with scheduled := true, schedNext := sched.getD level none } },
     (e.proc p).renderStamp != e.renderStamp)

/-- A `sched_next`-style link is null or points at a processor that is in
the schedule (its `SCHEDULED` flag is set). -/
def OkNext (e : EngineSched) : Option Nat → Prop
  | none => True
  | some r => r < e.procs.length ∧ (e.proc r).scheduled = true

instance (e : EngineSched) : (o : Option Nat) → Decidable (OkNext e o)
  | none => isTrue trivial
  | some _ => inferInstanceAs (Decidable (_ ∧ _))

/-- Schedule well-formedness: unscheduled processors have a null
`sched_next`; every `sched_next` link and every layer head is null or
points into the schedule. -/
def SchedInv (e : EngineSched) : Prop :=
  (∀ q < e.procs.length,
    (e.proc q).scheduled = false → (e.proc q).schedNext = none) ∧
  (∀ q < e.procs.length, OkNext e (e.proc q).schedNext) ∧
  (∀ h ∈ e.schedule, OkNext e h)

theorem sched_grow_length (l : List (Option Nat)) (level : Nat) :
    level + 1 ≤ (if l.length ≤ level then
      l ++ List.replicate (level + 1 - l.length) none else l).length := by
  split
  · simp only [List.length_append, List.length_replicate]
    omega
  · omega

theorem sched_grow_getD (l : List (Option Nat)) (level : Nat) :
    (if l.length ≤ level then
      l ++ List.replicate (level + 1 - l.length) none else l).getD level none =
    l.getD level none := by
  split
  · rename_i h
    rw [List.getD_eq_getElem?_getD, List.getElem?_append_right h,
      List.getElem?_replicate, List.getD_eq_getElem?_getD,
      List.getElem?_eq_none h]
    split <;> rfl
  · rfl

theorem sched_grow_mem (l : List (Option Nat)) (level : Nat) (h : Option Nat)
    (hm : h ∈ (if l.length ≤ level then
      l ++ List.replicate (level + 1 - l.length) none else l)) :
    h ∈ l ∨ h = none := by
  revert hm
  split
  · intro hm
    rcases List.mem_append.mp hm with hm | hm
    · exact Or.inl hm
    · exact Or.inr (List.eq_of_mem_replicate hm)
  · exact Or.inl

/-- C3 (confirmed): `schedule_add (p, k)` is a no-op when `p`'s SCHEDULED
flag is set; otherwise it grows the layer vector to length at least
`k + 1`, pushes `p` onto the head of `layers[k]` via the `sched_next`
link, sets SCHEDULED, and invokes `reset_state` iff `p`'s render stamp
differs from the engine's; the schedule invariant is preserved (so
`sched_next` is null or points into the schedule) and a second
`schedule_add` of the same processor is a no-op (the SCHEDULED flag is
set at most once per rebuild). -/
theorem C3_schedule_add_spec (e : EngineSched) (p level level2 : Nat)
    (hp : p < e.procs.length) :
    ((e.proc p).scheduled = true → schedule_add e p level = (e, false)) ∧
    ((e.proc p).scheduled = false →
      level + 1 ≤ (schedule_add e p level).1.schedule.length ∧
      (schedule_add e p level).1.schedule.getD level none = some p ∧
      ((schedule_add e p level).1.proc p).scheduled = true ∧
      ((schedule_add e p level).1.proc p).schedNext =
        e.schedule.getD level none ∧
      ((schedule_add e p level).2 = true ↔
        (e.proc p).renderStamp ≠ e.renderStamp)) ∧
    (SchedInv e → SchedInv (schedule_add e p level).1) ∧
    schedule_add (schedule_add e p level).1 p level2 =
      ((schedule_add e p level).1, false) := by
  by_cases hsch : (e.proc p).scheduled = true
  · have hnoop : schedule_add e p level = (e, false) := by
      unfold schedule_add
      rw [if_pos hsch]
    refine ⟨fun _ => hnoop, fun hf => absurd hf (by simp [hsch]), fun hi => ?_, ?_⟩
    · rw [hnoop]
      exact hi
    · rw [hnoop]
      show schedule_add e p level2 = (e, false)
      unfold schedule_add
      rw [if_pos hsch]
  · have hschf : (e.proc p).scheduled = false := by
      cases hb : (e.proc p).scheduled <;> simp_all
    set sched := (if e.schedule.length ≤ level then
        e.schedule ++ List.replicate (level + 1 - e.schedule.length) none
      else e.schedule) with hscheddef
    have he' : schedule_add e p level =
        ({ e with
            schedule := sched.set level (some p),
            procs := e.procs.set p
              { e.proc p with scheduled := true,
                              schedNext := sched.getD level none } },
         (e.proc p).renderStamp != e.renderStamp) := by
      unfold schedule_add
      rw [if_neg (by simp [hschf])]
    have hgrow := sched_grow_length e.schedule level
    have hlevlt : level < sched.length := by
      rw [← hscheddef] at hgrow
      omega
    have hprocs_self : ((schedule_add e p level).1.proc p) =
        { e.proc p with scheduled := true,
                        schedNext := sched.getD level none } := by
      rw [he']
      show (e.procs.set p _).getD p noProc = _
      rw [List.getD_eq_getElem?_getD, List.getElem?_set_self hp]
      rfl
    have hprocs_ne : ∀ q, q ≠ p →
        ((schedule_add e p level).1.proc q) = e.proc q := by
      intro q hqp
      rw [he']
      show (e.procs.set p _).getD q noProc = _
      rw [List.getD_eq_getElem?_getD, List.getElem?_set_ne (fun h => hqp h.symm),
        ← List.getD_eq_getElem?_getD]
      rfl
    have hlen' : (schedule_add e p level).1.procs.length = e.procs.length := by
      rw [he']
      exact List.length_set e.procs p _
    have hmono : ∀ q, (e.proc q).scheduled = true →
        ((schedule_add e p level).1.proc q).scheduled = true := by
      intro q hq
      by_cases hqp : q = p
      · subst hqp
        rw [hprocs_self]
      · rw [hprocs_ne q hqp]
        exact hq
    have hlift : ∀ o, OkNext e o → OkNext (schedule_add e p level).1 o := by
      intro o ho
      cases o with
      | none => trivial
      | some r =>
        obtain ⟨hr1, hr2⟩ := ho
        exact ⟨by omega, hmono r hr2⟩
    refine ⟨fun ht => absurd ht (by simp [hschf]), fun _ => ?_, fun hi => ?_, ?_⟩
    · refine ⟨?_, ?_, ?_, ?_, ?_⟩
      · rw [he']
        show level + 1 ≤ (sched.set level (some p)).length
        rw [List.length_set]
        omega
      · rw [he']
        show (sched.set level (some p)).getD level none = some p
        rw [List.getD_eq_getElem?_getD, List.getElem?_set_self hlevlt]
        rfl
      · rw [hprocs_self]
      · rw [hprocs_self]
        show sched.getD level none = e.schedule.getD level none
        rw [hscheddef]
        exact sched_grow_getD e.schedule level
      · rw [he']
        exact bne_iff_ne
    · obtain ⟨i1, i2, i3⟩ := hi
      have hoknext_old : OkNext (schedule_add e p level).1 (sched.getD level none) := by
        rw [hscheddef, sched_grow_getD e.schedule level]
        by_cases hlt : level < e.schedule.length
        · have hmem : e.schedule.getD level none ∈ e.schedule := by
            rw [List.getD_eq_getElem _ _ hlt]
            exact List.getElem_mem hlt
          exact hlift _ (i3 _ hmem)
        · rw [List.getD_eq_getElem?_getD, List.getElem?_eq_none (by omega)]
          trivial
      refine ⟨?_, ?_, ?_⟩
      · intro q hq hqs
        by_cases hqp : q = p
        · subst hqp
          rw [hprocs_self] at hqs
          simp at hqs
        · rw [hprocs_ne q hqp] at hqs ⊢
          exact i1 q (by omega) hqs
      · intro q hq
        by_cases hqp : q = p
        · subst hqp
          rw [hprocs_self]
          exact hoknext_old
        · rw [hprocs_ne q hqp]
          exact hlift _ (i2 q (by omega))
      · intro h hm
        rw [he'] at hm
        rcases List.mem_or_eq_of_mem_set hm with hm | rfl
        · rcases sched_grow_mem e.schedule level h (hscheddef ▸ hm) with hm | rfl
          · exact hlift _ (i3 h hm)
          · trivial
        · refine ⟨by omega, ?_⟩
          rw [hprocs_self]
    · set e1 := (schedule_add e p level).1 with he1
      have hsch1 : (e1.proc p).scheduled = true := by
        rw [hprocs_self]
      show schedule_add e1 p level2 = (e1, false)
      unfold schedule_add
      rw [if_pos hsch1]

/-- C3 witness: one unscheduled processor with stale stamp, scheduled at
level 1 of an initially empty schedule. -/
theorem C3_witness :
    (((⟨[], [⟨false, none, 3⟩], 5⟩ : EngineSched).proc 0).scheduled = true →
      schedule_add ⟨[], [⟨false, none, 3⟩], 5⟩ 0 1 =
        (⟨[], [⟨false, none, 3⟩], 5⟩, false)) ∧
    (((⟨[], [⟨false, none, 3⟩], 5⟩ : EngineSched).proc 0).scheduled = false →
      1 + 1 ≤ (schedule_add ⟨[], [⟨false, none, 3⟩], 5⟩ 0 1).1.schedule.length ∧
      (schedule_add ⟨[], [⟨false, none, 3⟩], 5⟩ 0 1).1.schedule.getD 1 none =
        some 0 ∧
      ((schedule_add ⟨[], [⟨false, none, 3⟩], 5⟩ 0 1).1.proc 0).scheduled = true ∧
      ((schedule_add ⟨[], [⟨false, none, 3⟩], 5⟩ 0 1).1.proc 0).schedNext =
        (⟨[], [⟨false, none, 3⟩], 5⟩ : EngineSched).schedule.getD 1 none ∧
      ((schedule_add ⟨[], [⟨false, none, 3⟩], 5⟩ 0 1).2 = true ↔
        ((⟨[], [⟨false, none, 3⟩], 5⟩ : EngineSched).proc 0).renderStamp ≠
          (⟨[], [⟨false, none, 3⟩], 5⟩ : EngineSched).renderStamp)) ∧
    (SchedInv ⟨[], [⟨false, none, 3⟩], 5⟩ →
      SchedInv (schedule_add ⟨[], [⟨false, none, 3⟩], 5⟩ 0 1).1) ∧
    schedule_add (schedule_add ⟨[], [⟨false, none, 3⟩], 5⟩ 0 1).1 0 0 =
      ((schedule_add ⟨[], [⟨false, none, 3⟩], 5⟩ 0 1).1, false) :=
  C3_schedule_add_spec ⟨[], [⟨false, none, 3⟩], 5⟩ 0 1 0 (by decide)

/-! ### Output interleaving: interleaved_stereo and schedule_render
(src/ase/engine.cc, lines 111-149 and 189-220)

An output processor restricted to what the interleave loop reads from it:
its output-bus count, the channel count of `MAIN_OBUS` and the per-channel
sample data of `MAIN_OBUS`.  Samples are an abstract additive type with a
zero (the C++ code uses `float`; none of the verified properties depend
on floating-point arithmetic). -/

structure OProc (α : Type) where
  n_obuses : Nat
  n_ochannels : Nat
  ofloats : Nat → List α

/-- The pair-writing do-while loop of `interleaved_stereo`: write
`n_frames` interleaved entries, storing (`ADDING = 0`) or summing
(`ADDING = 1`) the two source lanes. -/
def stereoMix [Add α] (adding : Bool) : Nat → List α → List α → List α → List α
  | n + 2, b0 :: b1 :: bs, x :: xs, y :: ys =>
      (if adding then b0 + x else x) :: (if adding then b1 + y else y) ::
        stereoMix adding n bs xs ys
  | _, buf, _, _ => buf

/-- `interleaved_stereo<ADDING> (n_frames, buffer, proc, MAIN_OBUS)`:
two or more channels use lanes 0 and 1; exactly one channel is duplicated
into both stereo lanes; zero channels leave the buffer untouched. -/
def interleaved_stereo [Add α] (adding : Bool) (n_frames : Nat)
    (buffer : List α) (p : OProc α) : List α :=
  if 2 ≤ p.n_ochannels then
    stereoMix adding n_frames buffer (p.ofloats 0) (p.ofloats 1)
  else if 1 ≤ p.n_ochannels then
    stereoMix adding n_frames buffer (p.ofloats 0) (p.ofloats 0)
  else buffer

/-- The loop body of the interleave pass in
`AudioEngineThread::schedule_render`: `n` counts the output processors
with at least one output bus seen so far (`n++ == 0` selects the storing
variant); processors without output buses are skipped. -/
def mixStep [Add α] (n_frames : Nat) (acc : Nat × List α) (p : OProc α) :
    Nat × List α :=
  if p.n_obuses ≠ 0 then
    if acc.1 = 0 then (acc.1 + 1, interleaved_stereo false n_frames acc.2 p)
    else (acc.1 + 1, interleaved_stereo true n_frames acc.2 p)
  else acc

/-- The output-mixing tail of `AudioEngineThread::schedule_render`: over
all output processors, those with at least one output bus are interleaved
into the stereo buffer — the first one stores, the rest sum; if none
contributed, the buffer is zero-filled
(`floatfill (chbuffer_data_, 0.0, buffer_size_ * fixed_n_channels)`). -/
def schedule_render_mix [Add α] [Zero α] (oprocs : List (OProc α))
    (buffer_size : Nat) (buffer : List α) : List α :=
  let r := oprocs.foldl (mixStep (buffer_size * 2)) (0, buffer)
  if r.1 = 0 then floatfill buffer (0 : α) (buffer_size * 2) else r.2

theorem mixStep_skip [Add α] {n : Nat} {acc : Nat × List α} {p : OProc α}
    (hpf : p.n_obuses = 0) : mixStep n acc p = acc := by
  unfold mixStep
  rw [if_neg (by omega)]

theorem mixStep_first [Add α] {n : Nat} {b : List α} {p : OProc α}
    (hpf : p.n_obuses ≠ 0) :
    mixStep n (0, b) p = (1, interleaved_stereo false n b p) := by
  unfold mixStep
  rw [if_pos hpf, if_pos rfl]

theorem mixStep_next [Add α] {n c : Nat} {b : List α} {p : OProc α}
    (hpf : p.n_obuses ≠ 0) (hc : c ≠ 0) :
    mixStep n (c, b) p = (c + 1, interleaved_stereo true n b p) := by
  unfold mixStep
  rw [if_pos hpf, if_neg hc]

theorem mix_fold_counter [Add α] (n : Nat) (l : List (OProc α)) :
    ∀ (c : Nat) (b : List α),
      l.foldl (mixStep n) (c + 1, b) =
        (c + 1 + (l.filter (fun p => p.n_obuses != 0)).length,
         (l.filter (fun p => p.n_obuses != 0)).foldl
           (fun b p => interleaved_stereo true n b p) b) := by
  induction l with
  | nil => intro c b; simp
  | cons p t ih =>
    intro c b
    by_cases hpf : p.n_obuses = 0
    · rw [List.foldl_cons, mixStep_skip hpf, ih c b,
        List.filter_cons_of_neg (by simp [hpf])]
    · rw [List.foldl_cons, mixStep_next hpf (by omega),
        List.filter_cons_of_pos (by simp [hpf]), ih (c + 1)]
      simp only [List.length_cons, List.foldl_cons, Prod.mk.injEq]
      refine ⟨by omega, trivial⟩

theorem mix_fold_nil [Add α] (n : Nat) (l : List (OProc α)) :
    ∀ b : List α, l.filter (fun p => p.n_obuses != 0) = [] →
      l.foldl (mixStep n) (0, b) = (0, b) := by
  induction l with
  | nil => intro b _; rfl
  | cons p t ih =>
    intro b hf
    rw [List.filter_cons] at hf
    by_cases hpf : p.n_obuses = 0
    · rw [List.foldl_cons, mixStep_skip hpf]
      exact ih b (by simpa [hpf] using hf)
    · rw [if_pos (by simp [hpf])] at hf
      cases hf

theorem mix_fold_cons [Add α] (n : Nat) (l : List (OProc α)) :
    ∀ (b : List α) (q : OProc α) (qs : List (OProc α)),
      l.filter (fun p => p.n_obuses != 0) = q :: qs →
      l.foldl (mixStep n) (0, b) =
        (qs.length + 1,
         qs.foldl (fun b p => interleaved_stereo true n b p)
           (interleaved_stereo false n b q)) := by
  induction l with
  | nil => intro b q qs hf; cases hf
  | cons p t ih =>
    intro b q qs hf
    rw [List.filter_cons] at hf
    by_cases hpf : p.n_obuses = 0
    · rw [List.foldl_cons, mixStep_skip hpf]
      exact ih b q qs (by simpa [hpf] using hf)
    · rw [if_pos (by simp [hpf])] at hf
      injection hf with hfq hft
      subst hfq
      rw [List.foldl_cons, mixStep_first (by omega),
        mix_fold_counter n t 0 (interleaved_stereo false n b p), hft]
      simp only [Prod.mk.injEq]
      refine ⟨by omega, trivial⟩

/-- In the storing pass, a single-lane source is duplicated into both
interleaved stereo slots. -/
theorem stereoMix_dup [Add α] (d : α) :
    ∀ (m : Nat) (buf s : List α) (j : Nat), j < m → 2 * m ≤ buf.length →
      m ≤ s.length →
      (stereoMix false (2 * m) buf s s).getD (2 * j) d = s.getD j d ∧
      (stereoMix false (2 * m) buf s s).getD (2 * j + 1) d = s.getD j d := by
  intro m
  induction m with
  | zero => intro buf s j hj _ _; exact absurd hj (by omega)
  | succ m ih =>
    intro buf s j hj hbuf hs
    cases buf with
    | nil => simp only [List.length_nil] at hbuf; omega
    | cons b0 rest =>
      cases rest with
      | nil => simp only [List.length_cons, List.length_nil] at hbuf; omega
      | cons b1 bs =>
        cases s with
        | nil => simp only [List.length_nil] at hs; omega
        | cons x xs =>
          have hred : stereoMix false (2 * (m + 1)) (b0 :: b1 :: bs)
              (x :: xs) (x :: xs) =
              x :: x :: stereoMix false (2 * m) bs xs xs := rfl
          rw [hred]
          cases j with
          | zero => exact ⟨rfl, rfl⟩
          | succ j =>
            have hblen : 2 * m ≤ bs.length := by
              simp only [List.length_cons] at hbuf
              omega
            have hslen : m ≤ xs.length := by
              simp only [List.length_cons] at hs
              omega
            have hih := ih bs xs j (by omega) hblen hslen
            have h2 : 2 * (j + 1) = (2 * j + 1) + 1 := by ring
            have h3 : 2 * (j + 1) + 1 = ((2 * j + 1) + 1) + 1 := by ring
            constructor
            · rw [h2, List.getD_cons_succ, List.getD_cons_succ,
                List.getD_cons_succ]
              exact hih.1
            · rw [h3, List.getD_cons_succ, List.getD_cons_succ,
                List.getD_cons_succ]
              exact hih.2

/-- C4 (confirmed): among output processors, only those with at least one
output bus contribute; the first contributes by store, each subsequent one
by summation; with no contributing processor the whole interleave buffer
is zero-filled; and a processor with exactly one output channel has that
channel duplicated into both stereo lanes. -/
theorem C4_interleave_mix (α : Type) [Add α] [Zero α]
    (oprocs : List (OProc α)) (buffer_size : Nat) (buffer : List α) :
    (oprocs.filter (fun p => p.n_obuses != 0) = [] →
      schedule_render_mix oprocs buffer_size buffer =
        List.replicate (buffer_size * 2) (0 : α) ++
          buffer.drop (buffer_size * 2)) ∧
    (∀ q qs, oprocs.filter (fun p => p.n_obuses != 0) = q :: qs →
      schedule_render_mix oprocs buffer_size buffer =
        qs.foldl (fun b p => interleaved_stereo true (buffer_size * 2) b p)
          (interleaved_stereo false (buffer_size * 2) buffer q)) ∧
    (∀ (p : OProc α) (j : Nat), p.n_ochannels = 1 → j < buffer_size →
      buffer_size * 2 ≤ buffer.length →
      buffer_size ≤ (p.ofloats 0).length →
      (interleaved_stereo false (buffer_size * 2) buffer p).getD (2 * j)
          (0 : α) = (p.ofloats 0).getD j 0 ∧
      (interleaved_stereo false (buffer_size * 2) buffer p).getD (2 * j + 1)
          (0 : α) = (p.ofloats 0).getD j 0) := by
  refine ⟨?_, ?_, ?_⟩
  · intro hf
    simp only [schedule_render_mix]
    rw [mix_fold_nil _ _ _ hf]
    rfl
  · intro q qs hf
    simp only [schedule_render_mix]
    rw [mix_fold_cons _ _ _ q qs hf, if_neg (by simp)]
  · intro p j hch hj hbuf hsrc
    unfold interleaved_stereo
    rw [if_neg (by omega), if_pos (by omega)]
    have h2 : buffer_size * 2 = 2 * buffer_size := by ring
    rw [h2]
    exact stereoMix_dup 0 buffer_size buffer (p.ofloats 0) j hj (by omega) hsrc

/-- C4 witness: a mono output processor followed by a bus-less processor:
the bus-less one is skipped, the mono one is stored with its single
channel duplicated into both stereo lanes. -/
theorem C4_witness :
    schedule_render_mix
        [⟨1, 1, fun _ => [10, 20]⟩, ⟨0, 2, fun _ => []⟩] 2
        ([1, 2, 3, 4] : List Int) =
      interleaved_stereo false 4 ([1, 2, 3, 4] : List Int)
        ⟨1, 1, fun _ => [10, 20]⟩ ∧
    (interleaved_stereo false 4 ([1, 2, 3, 4] : List Int)
        ⟨1, 1, fun _ => [10, 20]⟩).getD 0 (0 : Int) = 10 ∧
    (interleaved_stereo false 4 ([1, 2, 3, 4] : List Int)
        ⟨1, 1, fun _ => [10, 20]⟩).getD 1 (0 : Int) = 10 :=
  ⟨(C4_interleave_mix Int [⟨1, 1, fun _ => [10, 20]⟩, ⟨0, 2, fun _ => []⟩] 2
      [1, 2, 3, 4]).2.1 ⟨1, 1, fun _ => [10, 20]⟩ [] rfl,
   ((C4_interleave_mix Int [⟨1, 1, fun _ => [10, 20]⟩, ⟨0, 2, fun _ => []⟩] 2
      [1, 2, 3, 4]).2.2 ⟨1, 1, fun _ => [10, 20]⟩ 0 rfl (by decide) (by decide)
      (by decide)).1,
   ((C4_interleave_mix Int [⟨1, 1, fun _ => [10, 20]⟩, ⟨0, 2, fun _ => []⟩] 2
      [1, 2, 3, 4]).2.2 ⟨1, 1, fun _ => [10, 20]⟩ 0 rfl (by decide) (by decide)
      (by decide)).2⟩

/-! ### ipc_dispatch (src/ase/engine.cc, lines 495-515) -/

/-- Observable IPC dispatch events: delivering one user note, running the
processors' change-notification dispatch, deleting one trash job. -/
inductive IpcEvent where
  | note (n : Nat)
  | notify
  | trash (j : Nat)
deriving DecidableEq

/-- The IPC-related state of `AudioEngineThread`: the `user_notes_` and
`trash_jobs_` intrusive stacks and whether `AudioProcessor` change
notifications are pending. -/
structure IpcState where
  user_notes_ : AtomicIntrusiveStack Nat
  trash_jobs_ : AtomicIntrusiveStack Nat
  enotify_pending : Bool

/-- `AudioEngineThread::ipc_dispatch` as an event trace, in source order:
pop the user notes reversed (submission order) and dispatch each; then,
if pending, run `AudioProcessor::enotify_dispatch`; then pop all trash
jobs (stack order) and delete each. -/
def ipc_dispatch_trace (s : IpcState) : List IpcEvent :=
  ((s.user_notes_.pop_reversed).1.map IpcEvent.note) ++
    (if s.enotify_pending then [IpcEvent.notify] else []) ++
    ((s.trash_jobs_.pop_all).1.map IpcEvent.trash)

/-- C8 counterexample: with one queued user note, one trash job and a
pending change-notification, `ipc_dispatch` processes the notification
before the trash job — not after it as the claim states. -/
theorem C8_counterexample :
    ipc_dispatch_trace ⟨⟨[1]⟩, ⟨[2]⟩, true⟩ =
      [IpcEvent.note 1, IpcEvent.notify, IpcEvent.trash 2] ∧
    ipc_dispatch_trace ⟨⟨[1]⟩, ⟨[2]⟩, true⟩ ≠
      [IpcEvent.note 1, IpcEvent.trash 2, IpcEvent.notify] := by
  refine ⟨rfl, ?_⟩
  decide

/-- C8 (corrected): `ipc_dispatch` pops and processes first all user
notes (in submission order), then the pending change-notifications, and
then all trash jobs, in that order (the claim had trash jobs before
change-notifications; the code dispatches change-notifications first).
Stated positionally over the dispatch trace. -/
theorem C8_ipc_dispatch_order (s : IpcState) :
    (∀ i, i < s.user_notes_.items.length →
      (ipc_dispatch_trace s).getD i IpcEvent.notify =
        IpcEvent.note (s.user_notes_.items.reverse.getD i 0)) ∧
    (s.enotify_pending = true →
      (ipc_dispatch_trace s).getD s.user_notes_.items.length
        (IpcEvent.note 0) = IpcEvent.notify) ∧
    (∀ k, k < s.trash_jobs_.items.length →
      (ipc_dispatch_trace s).getD
        (s.user_notes_.items.length +
          (if s.enotify_pending then 1 else 0) + k) IpcEvent.notify =
        IpcEvent.trash (s.trash_jobs_.items.getD k 0)) ∧
    (ipc_dispatch_trace s).length =
      s.user_notes_.items.length + (if s.enotify_pending then 1 else 0) +
        s.trash_jobs_.items.length := by
  have htr : ipc_dispatch_trace s =
      (s.user_notes_.items.reverse.map IpcEvent.note ++
        (if s.enotify_pending then [IpcEvent.notify] else [])) ++
      s.trash_jobs_.items.map IpcEvent.trash := by
    unfold ipc_dispatch_trace
    rfl
  have hA : (s.user_notes_.items.reverse.map IpcEvent.note).length =
      s.user_notes_.items.length := by
    rw [List.length_map, List.length_reverse]
  have hB : (if s.enotify_pending then [IpcEvent.notify] else
      ([] : List IpcEvent)).length = if s.enotify_pending then 1 else 0 := by
    cases s.enotify_pending <;> rfl
  refine ⟨?_, ?_, ?_, ?_⟩
  · intro i hi
    have hlt : i < s.user_notes_.items.reverse.length := by
      rw [List.length_reverse]
      exact hi
    rw [htr, List.getD_eq_getElem?_getD,
      List.getElem?_append_left (by
        rw [List.length_append, hA]
        omega),
      List.getElem?_append_left (by rw [hA]; exact hi),
      List.getElem?_map, List.getElem?_eq_getElem hlt,
      List.getD_eq_getElem _ _ hlt]
    rfl
  · intro hp
    rw [htr, List.getD_eq_getElem?_getD,
      List.getElem?_append_left (by
        rw [List.length_append, hA, hB, hp]
        simp),
      List.getElem?_append_right (by rw [hA]), hA, Nat.sub_self, hp]
    rfl
  · intro k hk
    have hkC : k < (s.trash_jobs_.items.map IpcEvent.trash).length := by
      rw [List.length_map]
      exact hk
    rw [htr, List.getD_eq_getElem?_getD,
      List.getElem?_append_right (by
        rw [List.length_append, hA, hB]
        omega)]
    rw [List.length_append, hA, hB]
    have hidx : s.user_notes_.items.length +
        (if s.enotify_pending then 1 else 0) + k -
        (s.user_notes_.items.length +
          (if s.enotify_pending then 1 else 0)) = k := by omega
    rw [hidx, List.getElem?_map,
      List.getElem?_eq_getElem hk, List.getD_eq_getElem _ _ hk]
    rfl
  · rw [htr, List.length_append, List.length_append, hA, hB, List.length_map]

/-- C8 witness: two user notes (submitted 1 then 2), one trash job and a
pending change-notification give the trace positions
note 1, note 2, notify, trash 9. -/
theorem C8_witness :
    (ipc_dispatch_trace ⟨⟨[2, 1]⟩, ⟨[9]⟩, true⟩).getD 0 IpcEvent.notify =
      IpcEvent.note ((⟨⟨[2, 1]⟩, ⟨[9]⟩, true⟩ :
        IpcState).user_notes_.items.reverse.getD 0 0) ∧
    (ipc_dispatch_trace ⟨⟨[2, 1]⟩, ⟨[9]⟩, true⟩).getD 2 (IpcEvent.note 0) =
      IpcEvent.notify ∧
    (ipc_dispatch_trace ⟨⟨[2, 1]⟩, ⟨[9]⟩, true⟩).getD 3 IpcEvent.notify =
      IpcEvent.trash 9 ∧
    (ipc_dispatch_trace ⟨⟨[2, 1]⟩, ⟨[9]⟩, true⟩).length = 4 :=
  ⟨(C8_ipc_dispatch_order ⟨⟨[2, 1]⟩, ⟨[9]⟩, true⟩).1 0 (by decide),
   (C8_ipc_dispatch_order ⟨⟨[2, 1]⟩, ⟨[9]⟩, true⟩).2.1 rfl,
   (C8_ipc_dispatch_order ⟨⟨[2, 1]⟩, ⟨[9]⟩, true⟩).2.2.1 0 (by decide),
   (C8_ipc_dispatch_order ⟨⟨[2, 1]⟩, ⟨[9]⟩, true⟩).2.2.2⟩

/-! ### EngineMidiInput render/reset (src/ase/engine.cc, lines 776-804) -/

/-- Operations performed by `EngineMidiInput` on its MIDI event output
stream: `clear`, `reserve (n)` and a `fetch_events` call on one driver
(drivers are identified by their id; `fetch_events` itself is a driver
capability outside the engine). -/
inductive MidiOp where
  | clear
  | reserve (n : Nat)
  | fetch (driver : Nat)
deriving DecidableEq

/-- `EngineMidiInput::render`: clear the event output stream, then loop
over `midi_drivers_` by index invoking `fetch_events` on each.  Recorded
as the stream-operation trace. -/
def midi_render_trace (midi_drivers : List Nat) : List MidiOp :=
  (List.range midi_drivers.length).foldl
    (fun tr i => tr ++ [MidiOp.fetch (midi_drivers.getD i 0)]) [MidiOp.clear]

/-- `EngineMidiInput::reset`: clear the event output stream and reserve
256 events of headroom. -/
def midi_reset_trace : List MidiOp :=
  [MidiOp.clear, MidiOp.reserve 256]

theorem foldl_append_ops {β γ : Type} (g : β → γ) :
    ∀ (idxs : List β) (tr : List γ),
      idxs.foldl (fun tr i => tr ++ [g i]) tr = tr ++ idxs.map g := by
  intro idxs
  induction idxs with
  | nil => intro tr; simp
  | cons i t ih =>
    intro tr
    rw [List.foldl_cons, ih (tr ++ [g i])]
    simp

theorem range_map_getD {γ : Type} (f : Nat → γ) :
    ∀ l : List Nat,
      (List.range l.length).map (fun i => f (l.getD i 0)) = l.map f := by
  intro l
  induction l with
  | nil => rfl
  | cons a t ih =>
    show (List.range (t.length + 1)).map _ = _
    rw [List.range_succ_eq_map, List.map_cons, List.map_map]
    have hm : ((List.range t.length).map
        ((fun i => f ((a :: t).getD i 0)) ∘ Nat.succ)) =
        (List.range t.length).map (fun i => f (t.getD i 0)) := by
      refine List.map_congr_left ?_
      intro i _
      show f ((a :: t).getD (i + 1) 0) = f (t.getD i 0)
      rw [List.getD_cons_succ]
    rw [hm, ih]
    rfl

/-- C9 counterexample: with a single MIDI driver, `render` performs a
clear followed directly by the driver's `fetch_events` — it never
reserves event headroom (the `reserve (256)` happens in `reset`). -/
theorem C9_counterexample :
    midi_render_trace [0] = [MidiOp.clear, MidiOp.fetch 0] ∧
    midi_render_trace [0] ≠
      [MidiOp.clear, MidiOp.reserve 256, MidiOp.fetch 0] ∧
    (MidiOp.reserve 256) ∉ midi_render_trace [0] := by
  refine ⟨rfl, by decide, by decide⟩

/-- C9 (corrected): every invocation of `EngineMidiInput::render` clears
its event output stream and then invokes `fetch_events` on each driver of
its MIDI driver list, in list order, without reserving any headroom; the
clear-plus-reserve-256 happens in `reset`, not in `render`. -/
theorem C9_midi_render_reset (drivers : List Nat) :
    midi_render_trace drivers =
      MidiOp.clear :: drivers.map MidiOp.fetch ∧
    (∀ n, (MidiOp.reserve n) ∉ midi_render_trace drivers) ∧
    midi_reset_trace = [MidiOp.clear, MidiOp.reserve 256] := by
  have h1 : midi_render_trace drivers =
      MidiOp.clear :: drivers.map MidiOp.fetch := by
    unfold midi_render_trace
    rw [foldl_append_ops, range_map_getD]
    rfl
  refine ⟨h1, ?_, rfl⟩
  intro n hn
  rw [h1] at hn
  rcases List.mem_cons.mp hn with h | h
  · cases h
  · rcases List.mem_map.mp h with ⟨d, -, hd⟩
    cases hd

/-- C9 witness: two drivers are fetched in list order after the clear,
and no headroom reservation occurs. -/
theorem C9_witness :
    midi_render_trace [3, 4] =
      [MidiOp.clear, MidiOp.fetch 3, MidiOp.fetch 4] ∧
    (MidiOp.reserve 256) ∉ midi_render_trace [3, 4] :=
  ⟨(C9_midi_render_reset [3, 4]).1, (C9_midi_render_reset [3, 4]).2.1 256⟩

end Anklang
